import Mathlib

/-!
Shallow embedding of the `ido` crate (src/lib.rs): an in-memory ordered
associative container with tagged-variant values and recursive string
serialization.  Hash maps are modelled as association lists (`alGet`,
`alInsert`, `alErase`); the `u64` order counter and positions are `Nat`;
keys (`i32`) and stored integers (`i64`) are `Int`, with the narrowing
casts of the getters made explicit through `asSigned` / `asUnsigned`.
Potentially diverging walks (the ordered iterator, recursive
serialization) are defined with a fuel parameter large enough to be
exact; fuel-independence is proved below.
-/

/-- Variant tag of a stored item (Rust `enum IdoItemType`). -/
inductive IdoItemType where
  | STRING
  | INTEGER
  | FLOAT
  | DATETIME
  | ARRAY
deriving DecidableEq

/-- Model of `chrono::DateTime<Utc>`: an abstract tick count.  No public
operation of the container ever constructs a `DATETIME` item (there is no
datetime setter in the source), so the payload value and its rendering are
unobservable through the container API. -/
structure DateTimeUtc where
  ticks : Int
deriving DecidableEq

/-- Model of `DateTime::<Utc>::MIN_UTC` (the concrete tick value is never
observable, see `DateTimeUtc`). -/
def DateTimeUtc.minUtc : DateTimeUtc := ⟨0⟩

/-- Model of chrono's `format("%Y-%m-%d %H:%M:%S%.4f")` rendering; the exact
text is irrelevant to every claim because no reachable item has the
`DATETIME` tag. -/
def DateTimeUtc.format (d : DateTimeUtc) : String :=
  toString d.ticks

/-- Model of Rust `f64::to_string`; no claim depends on the exact float
rendering (no concrete state under verification stores a float). -/
def floatToString (f : Float) : String :=
  toString f

/-- Association-list lookup, modelling `HashMap::get`. -/
def alGet {α β : Type} [DecidableEq α] : List (α × β) → α → Option β
  | [], _ => none
  | (k', v) :: t, k => if k' = k then some v else alGet t k

/-- Association-list removal, modelling `HashMap::remove`. -/
def alErase {α β : Type} [DecidableEq α] : List (α × β) → α → List (α × β)
  | [], _ => []
  | (k', v) :: t, k => if k' = k then alErase t k else (k', v) :: alErase t k

/-- Association-list insert/overwrite, modelling `HashMap::insert`. -/
def alInsert {α β : Type} [DecidableEq α] (l : List (α × β)) (k : α) (v : β) : List (α × β) :=
  (k, v) :: alErase l k

mutual
/-- Rust `struct IdoItem` (field for field). -/
inductive IdoItem where
  | mk (m_index : Nat) (m_key : Int) (m_string : String) (m_type : IdoItemType)
      (m_integer : Int) (m_float : Float) (m_datetime : DateTimeUtc)
      (m_array : List Ido) : IdoItem

/-- Rust `struct Ido`: value map, order counter `m_idx`, order index
`m_ordered` (position → key). -/
inductive Ido where
  | mk (m_items : List (Int × IdoItem)) (m_idx : Nat)
      (m_ordered : List (Nat × Int)) : Ido
end

def IdoItem.m_index : IdoItem → Nat
  | .mk i _ _ _ _ _ _ _ => i

def IdoItem.m_key : IdoItem → Int
  | .mk _ k _ _ _ _ _ _ => k

def IdoItem.m_string : IdoItem → String
  | .mk _ _ s _ _ _ _ _ => s

def IdoItem.m_type : IdoItem → IdoItemType
  | .mk _ _ _ t _ _ _ _ => t

def IdoItem.m_integer : IdoItem → Int
  | .mk _ _ _ _ n _ _ _ => n

def IdoItem.m_float : IdoItem → Float
  | .mk _ _ _ _ _ f _ _ => f

def IdoItem.m_datetime : IdoItem → DateTimeUtc
  | .mk _ _ _ _ _ _ d _ => d

def IdoItem.m_array : IdoItem → List Ido
  | .mk _ _ _ _ _ _ _ a => a

def Ido.m_items : Ido → List (Int × IdoItem)
  | .mk items _ _ => items

def Ido.m_idx : Ido → Nat
  | .mk _ idx _ => idx

def Ido.m_ordered : Ido → List (Nat × Int)
  | .mk _ _ ordered => ordered

/-- `IdoItem::new`. -/
def IdoItem.new : IdoItem :=
  .mk 0 0 "" .STRING 0 0.0 DateTimeUtc.minUtc []

/-- `IdoItem::get_type`. -/
def IdoItem.get_type (it : IdoItem) : IdoItemType :=
  it.m_type

/-- `IdoItem::as_string`: renders any variant to a display string (every
arm returns `Some`). -/
def IdoItem.as_string (it : IdoItem) : Option String :=
  match it.m_type with
  | .STRING => some it.m_string
  | .FLOAT => some (floatToString it.m_float)
  | .INTEGER => some (toString it.m_integer)
  | .DATETIME => some it.m_datetime.format
  | .ARRAY => some ("<array of " ++ toString it.m_array.length ++ ">")

/-- `Ido::new`. -/
def Ido.new : Ido :=
  .mk [] 0 []

/-- `Ido::clear`. -/
def Ido.clear (_ : Ido) : Ido :=
  .mk [] 0 []

/-- `Ido::size`. -/
def Ido.size (s : Ido) : Nat :=
  s.m_items.length

/-- `Ido::contains`. -/
def Ido.contains (s : Ido) (key : Int) : Bool :=
  (alGet s.m_items key).isSome

/-- `Ido::is_type`. -/
def Ido.is_type (s : Ido) (key : Int) (ty : IdoItemType) : Bool :=
  match alGet s.m_items key with
  | some value => decide (value.m_type = ty)
  | none => false

/-- `Ido::get_item` (the Rust clone is value copying). -/
def Ido.get_item (s : Ido) (key : Int) : Option IdoItem :=
  alGet s.m_items key

/-- `Ido::update`: insert every pair of `other` directly into the value
map, bypassing the order index and the counter. -/
def Ido.update (s : Ido) (other : Ido) : Ido :=
  .mk (other.m_items.foldl (fun m kv => alInsert m kv.1 kv.2) s.m_items)
    s.m_idx s.m_ordered

/-- `Ido::set_item`: stamp key and current counter onto the item, drop the
overwritten key's old order entry, insert into both maps, bump the counter. -/
def Ido.set_item (s : Ido) (key : Int) (item : IdoItem) : Ido :=
  let item' : IdoItem :=
    .mk s.m_idx key item.m_string item.m_type item.m_integer item.m_float
      item.m_datetime item.m_array
  let ordered :=
    match alGet s.m_items key with
    | some value => alErase s.m_ordered value.m_index
    | none => s.m_ordered
  .mk (alInsert s.m_items key item') (s.m_idx + 1) (alInsert ordered s.m_idx key)

/-- `Ido::set_string`. -/
def Ido.set_string (s : Ido) (key : Int) (val : String) : Ido :=
  s.set_item key (.mk 0 0 val .STRING 0 0.0 DateTimeUtc.minUtc [])

/-- `Ido::set_integer`. -/
def Ido.set_integer (s : Ido) (key : Int) (val : Int) : Ido :=
  s.set_item key (.mk 0 0 "" .INTEGER val 0.0 DateTimeUtc.minUtc [])

/-- `Ido::set_f64`. -/
def Ido.set_f64 (s : Ido) (key : Int) (val : Float) : Ido :=
  s.set_item key (.mk 0 0 "" .FLOAT 0 val DateTimeUtc.minUtc [])

/-- Rust `as uN` cast out of `i64`: the value reduced modulo `2 ^ w`. -/
def asUnsigned (w : Nat) (n : Int) : Int :=
  n % (2 ^ w : Nat)

/-- Rust `as iN` cast out of `i64`: low `w` bits reinterpreted as a signed
`w`-bit value. -/
def asSigned (w : Nat) (n : Int) : Int :=
  (n + 2 ^ (w - 1)) % (2 ^ w : Nat) - 2 ^ (w - 1)

/-- `Ido::get_string`. -/
def Ido.get_string (s : Ido) (key : Int) : Option String :=
  match alGet s.m_items key with
  | some value =>
      if value.m_type ≠ .STRING then none else some value.m_string
  | none => none

/-- `Ido::get_i64` (no cast: the stored integer is already 64-bit). -/
def Ido.get_i64 (s : Ido) (key : Int) : Option Int :=
  match alGet s.m_items key with
  | some value =>
      if value.m_type ≠ .INTEGER then none else some value.m_integer
  | none => none

/-- `Ido::get_i32` (`m_integer as i32`). -/
def Ido.get_i32 (s : Ido) (key : Int) : Option Int :=
  match alGet s.m_items key with
  | some value =>
      if value.m_type ≠ .INTEGER then none else some (asSigned 32 value.m_integer)
  | none => none

/-- `Ido::get_i16` (`m_integer as i16`). -/
def Ido.get_i16 (s : Ido) (key : Int) : Option Int :=
  match alGet s.m_items key with
  | some value =>
      if value.m_type ≠ .INTEGER then none else some (asSigned 16 value.m_integer)
  | none => none

/-- `Ido::get_i8` (`m_integer as i8`). -/
def Ido.get_i8 (s : Ido) (key : Int) : Option Int :=
  match alGet s.m_items key with
  | some value =>
      if value.m_type ≠ .INTEGER then none else some (asSigned 8 value.m_integer)
  | none => none

/-- `Ido::get_u64` (`m_integer as u64`). -/
def Ido.get_u64 (s : Ido) (key : Int) : Option Int :=
  match alGet s.m_items key with
  | some value =>
      if value.m_type ≠ .INTEGER then none else some (asUnsigned 64 value.m_integer)
  | none => none

/-- `Ido::get_u32` (`m_integer as u32`). -/
def Ido.get_u32 (s : Ido) (key : Int) : Option Int :=
  match alGet s.m_items key with
  | some value =>
      if value.m_type ≠ .INTEGER then none else some (asUnsigned 32 value.m_integer)
  | none => none

/-- `Ido::get_u16` (`m_integer as u16`). -/
def Ido.get_u16 (s : Ido) (key : Int) : Option Int :=
  match alGet s.m_items key with
  | some value =>
      if value.m_type ≠ .INTEGER then none else some (asUnsigned 16 value.m_integer)
  | none => none

/-- `Ido::get_u8` (`m_integer as u8`). -/
def Ido.get_u8 (s : Ido) (key : Int) : Option Int :=
  match alGet s.m_items key with
  | some value =>
      if value.m_type ≠ .INTEGER then none else some (asUnsigned 8 value.m_integer)
  | none => none

/-- `Ido::get_f64`. -/
def Ido.get_f64 (s : Ido) (key : Int) : Option Float :=
  match alGet s.m_items key with
  | some value =>
      if value.m_type ≠ .FLOAT then none else some value.m_float
  | none => none

/-- `Ido::empty_array`: install a fresh empty ARRAY item via `set_item`. -/
def Ido.empty_array (s : Ido) (key : Int) : Ido :=
  s.set_item key (.mk 0 0 "" .ARRAY 0 0.0 DateTimeUtc.minUtc [])

/-- `Ido::append_array`: initialize an empty array via `set_item` when the
key is absent or not an ARRAY, then push `data` in place (the `get_mut`
mutation is modelled as lookup plus re-insert of the modified item). -/
def Ido.append_array (s : Ido) (key : Int) (data : Ido) : Ido :=
  let s₁ :=
    match alGet s.m_items key with
    | some value => if value.m_type ≠ .ARRAY then s.empty_array key else s
    | none => s.empty_array key
  match alGet s₁.m_items key with
  | some value =>
      .mk
        (alInsert s₁.m_items key
          (.mk value.m_index value.m_key value.m_string .ARRAY value.m_integer
            value.m_float value.m_datetime (value.m_array ++ [data])))
        s₁.m_idx s₁.m_ordered
  | none => s₁

/-- `Ido::delete_item`. -/
def Ido.delete_item (s : Ido) (key : Int) : Ido :=
  match alGet s.m_items key with
  | some value =>
      .mk (alErase s.m_items key) s.m_idx (alErase s.m_ordered value.m_index)
  | none => s

/-- State of `OrderedIdoIterator`: the borrowed container and the current
position. -/
structure OrderedIdoIterator where
  m_ido : Ido
  m_curr : Nat

/-- Outcome of one `OrderedIdoIterator::next` call: a yielded pair with the
advanced iterator, the end-of-sequence signal (`None` in Rust), or the
panic of the internal `unwrap` when the order index names a key missing
from the value map. -/
inductive IterNext where
  | yield (key : Int) (item : IdoItem) (it : OrderedIdoIterator) : IterNext
  | ended : IterNext
  | fault : IterNext

/-- `OrderedIdoIterator::next`. -/
def OrderedIdoIterator.next (it : OrderedIdoIterator) : IterNext :=
  match alGet it.m_ido.m_ordered it.m_curr with
  | some key =>
      match it.m_ido.get_item key with
      | some item => .yield key item ⟨it.m_ido, it.m_curr + 1⟩
      | none => .fault
  | none => .ended

/-- `Ido::into_ordered_iterator`. -/
def Ido.into_ordered_iterator (s : Ido) : OrderedIdoIterator :=
  ⟨s, 0⟩

/-- Largest position occurring in an order index (0 for the empty index);
any walk of consecutive positions must hit a gap within `maxPos + 1`
steps, which justifies the fuel bounds below. -/
def maxPos (ordered : List (Nat × Int)) : Nat :=
  ordered.foldr (fun p m => max p.1 m) 0

/-- The (position, key) pairs visited by the ordered walk starting at
`curr`, up to `fuel` steps; with `fuel > maxPos ordered - curr + 1` this
is exactly the walk of the Rust iterator, which stops at the first gap
(shown in `walkPositions_fuel_indep`). -/
def walkPositions (ordered : List (Nat × Int)) (curr : Nat) : Nat → List (Nat × Int)
  | 0 => []
  | fuel + 1 =>
    match alGet ordered curr with
    | none => []
    | some k => (curr, k) :: walkPositions ordered (curr + 1) fuel

/-- All (position, key) pairs the ordered iterator of `s` visits before
its first gap. -/
def orderedKeys (s : Ido) : List (Nat × Int) :=
  walkPositions s.m_ordered 0 (maxPos s.m_ordered + 2)

/-- The pairs yielded by repeatedly calling `next` on an ordered iterator
(`fuel` bounds the number of calls; both `ended` and the `fault` panic
stop the trace — claims about faulting states go through `IterNext`
directly). -/
def iterTraceFuel : OrderedIdoIterator → Nat → List (Int × IdoItem)
  | _, 0 => []
  | it, fuel + 1 =>
    match it.next with
    | .yield key item it' => (key, item) :: iterTraceFuel it' fuel
    | .ended => []
    | .fault => []

/-- The full yield sequence of `s`'s ordered iterator. -/
def ordSeq (s : Ido) : List (Int × IdoItem) :=
  iterTraceFuel s.into_ordered_iterator (maxPos s.m_ordered + 2)

mutual
/-- Structural size of a container, bounding its nesting depth; used as
the (provably sufficient) fuel of `Ido.to_string`. -/
def idoSize : Ido → Nat
  | .mk items _ _ => 1 + itemsSize items

/-- Structural size of a value map. -/
def itemsSize : List (Int × IdoItem) → Nat
  | [] => 0
  | (_, it) :: t => 1 + itemSize it + itemsSize t

/-- Structural size of a stored item. -/
def itemSize : IdoItem → Nat
  | .mk _ _ _ _ _ _ _ arr => 1 + arrSize arr

/-- Structural size of an array payload. -/
def arrSize : List Ido → Nat
  | [] => 0
  | e :: es => 1 + idoSize e + arrSize es
end

/-- The inner loop of `Ido::to_string` for an ARRAY entry: one
`key=[<nested to_string>]` segment per array element, concatenated with no
separator in between; `ts` is the serialization used for the nested
containers. -/
def arraySegs (ts : Ido → Option String) (key : Int) : List Ido → Option String
  | [] => some ""
  | e :: es =>
    match ts e with
    | none => none
    | some inner =>
      match arraySegs ts key es with
      | none => none
      | some rest => some (toString key ++ "=[" ++ inner ++ "]" ++ rest)

/-- The accumulator loop of `Ido::to_string` over the visited
(position, key) pairs: prepend a comma when `count ≠ 0`, render scalar
entries as `key=value`, render ARRAY entries through `arraySegs`, and
count every rendered entry; `none` models a panic of the iterator's
`unwrap` (an order-index entry whose key is missing from the value map)
propagating out of the serialization. -/
def toStringGo (ts : Ido → Option String) (s : Ido) :
    List (Nat × Int) → String → Nat → Option String
  | [], acc, _ => some acc
  | (_, key) :: rest, acc, count =>
    match s.get_item key with
    | none => none
    | some item =>
      let acc' := if count ≠ 0 then acc ++ "," else acc
      match item.as_string with
      | none => toStringGo ts s rest acc' count
      | some vstr =>
        if item.get_type = .ARRAY then
          match arraySegs ts key item.m_array with
          | none => none
          | some seg => toStringGo ts s rest (acc' ++ seg) (count + 1)
        else
          toStringGo ts s rest (acc' ++ toString key ++ "=" ++ vstr) (count + 1)

/-- `Ido::to_string`, fueled: the fuel only bounds the nesting depth and
`toStringFuel (idoSize s) s` is exact (`toStringFuel_stable`). -/
def toStringFuel : Nat → Ido → Option String
  | 0, _ => none
  | fuel + 1, s => toStringGo (toStringFuel fuel) s (orderedKeys s) "" 0

/-- `Ido::to_string` (`idoSize s` strictly bounds the nesting depth, so
the fuel never runs out; see `toStringFuel_stable`). -/
def Ido.to_string (s : Ido) : Option String :=
  toStringFuel (idoSize s) s

/-- Validity of a container state: every order-index position maps to a key
present in the value map whose stored index field equals that position,
every position in the order index is below the counter, and every stored
item's index is below the counter. -/
def WF (s : Ido) : Prop :=
  (∀ p k, alGet s.m_ordered p = some k →
      ∃ it, alGet s.m_items k = some it ∧ it.m_index = p) ∧
    (∀ p k, alGet s.m_ordered p = some k → p < s.m_idx) ∧
    (∀ k it, alGet s.m_items k = some it → it.m_index < s.m_idx)

/-! ### Reachability through the public mutating operations (`update`
excluded) -/

/-- One public mutating operation of the container (`update` excluded, as
in the safety claim). -/
inductive IdoOp where
  | setItem (key : Int) (item : IdoItem) : IdoOp
  | setString (key : Int) (val : String) : IdoOp
  | setInteger (key : Int) (val : Int) : IdoOp
  | setF64 (key : Int) (val : Float) : IdoOp
  | appendArray (key : Int) (data : Ido) : IdoOp
  | deleteItem (key : Int) : IdoOp
  | clear : IdoOp

/-- Apply one public operation. -/
def applyOp (s : Ido) : IdoOp → Ido
  | .setItem key item => s.set_item key item
  | .setString key val => s.set_string key val
  | .setInteger key val => s.set_integer key val
  | .setF64 key val => s.set_f64 key val
  | .appendArray key data => s.append_array key data
  | .deleteItem key => s.delete_item key
  | .clear => s.clear

/-- States reachable from a fresh container by public operations. -/
def Reachable (s : Ido) : Prop :=
  ∃ ops : List IdoOp, s = ops.foldl applyOp Ido.new

/-! ### Concrete states used by the verification -/

/-- The overwrite example: `set(1,"A"); set(2,"B"); set(1,"C")` via
`set_string` on a fresh container. -/
def exOverwrite : Ido :=
  ((Ido.new.set_string 1 "A").set_string 2 "B").set_string 1 "C"

/-- The nested container `e` of the serialization example. -/
def exNestedInner : Ido :=
  (Ido.new.set_string 100 "nested").set_string 101 "nested_two"

/-- The nested serialization example `d`: two strings, an array holding
`exNestedInner`, and an integer. -/
def exNested : Ido :=
  (((Ido.new.set_string 1 "Blah").set_string 2 "More Blah").append_array 3
      exNestedInner).set_integer 4 32

/-- A container whose sole entry is an array of two (empty) nested
containers, built by two `append_array` calls on a fresh key. -/
def exArrayTwo : Ido :=
  (Ido.new.append_array 5 Ido.new).append_array 5 Ido.new

/-! ### Association-list laws -/

theorem alGet_nil {α β : Type} [DecidableEq α] (k : α) :
    alGet ([] : List (α × β)) k = none := rfl

theorem alGet_cons {α β : Type} [DecidableEq α] (a : α) (b : β) (t : List (α × β)) (k : α) :
    alGet ((a, b) :: t) k = if a = k then some b else alGet t k := rfl

theorem mem_of_alGet {α β : Type} [DecidableEq α] {l : List (α × β)} {k : α} {v : β}
    (h : alGet l k = some v) : (k, v) ∈ l := by
  induction l with
  | nil => simp [alGet] at h
  | cons p t ih =>
    obtain ⟨a, b⟩ := p
    rw [alGet_cons] at h
    by_cases hak : a = k
    · subst hak
      simp at h
      simp [h]
    · rw [if_neg hak] at h
      exact List.mem_cons_of_mem _ (ih h)

theorem alGet_alErase {α β : Type} [DecidableEq α] (l : List (α × β)) (x y : α) :
    alGet (alErase l x) y = if y = x then none else alGet l y := by
  induction l with
  | nil => simp [alErase, alGet]
  | cons p t ih =>
    obtain ⟨a, b⟩ := p
    rw [alErase]
    by_cases hax : a = x
    · rw [if_pos hax, ih, alGet_cons]
      by_cases hyx : y = x
      · rw [if_pos hyx, if_pos hyx]
      · have hay : ¬a = y := fun h => hyx ((h.symm.trans hax))
        rw [if_neg hyx, if_neg hyx, if_neg hay]
    · rw [if_neg hax, alGet_cons, ih, alGet_cons]
      by_cases hay : a = y
      · have hyx : ¬y = x := fun h => hax (hay.trans h)
        rw [if_pos hay, if_neg hyx, if_pos hay]
      · rw [if_neg hay]
        by_cases hyx : y = x
        · rw [if_pos hyx, if_pos hyx]
        · rw [if_neg hyx, if_neg hyx, if_neg hay]

theorem alGet_alInsert_self {α β : Type} [DecidableEq α] (l : List (α × β)) (k : α) (v : β) :
    alGet (alInsert l k v) k = some v := by
  simp [alInsert, alGet_cons]

theorem alGet_alInsert_ne {α β : Type} [DecidableEq α] (l : List (α × β)) (k k' : α) (v : β)
    (h : k' ≠ k) : alGet (alInsert l k v) k' = alGet l k' := by
  rw [alInsert, alGet_cons, if_neg (fun hh => h hh.symm), alGet_alErase, if_neg h]

theorem alGet_alInsert {α β : Type} [DecidableEq α] (l : List (α × β)) (k k' : α) (v : β) :
    alGet (alInsert l k v) k' = if k = k' then some v else alGet l k' := by
  by_cases h : k = k'
  · subst h
    rw [alGet_alInsert_self, if_pos rfl]
  · rw [alGet_alInsert_ne _ _ _ _ (fun hh => h hh.symm), if_neg h]

theorem alGet_eq_none_of_forall_ne {α β : Type} [DecidableEq α] {l : List (α × β)} {k : α}
    (h : ∀ p ∈ l, p.1 ≠ k) : alGet l k = none := by
  induction l with
  | nil => rfl
  | cons p t ih =>
    obtain ⟨a, b⟩ := p
    rw [alGet_cons, if_neg (h (a, b) (List.mem_cons_self _ _))]
    exact ih fun q hq => h q (List.mem_cons_of_mem _ hq)

/-! ### The ordered walk: fuel bounds and characterization -/

theorem le_maxPos_of_mem {ordered : List (Nat × Int)} {p : Nat} {k : Int}
    (h : (p, k) ∈ ordered) : p ≤ maxPos ordered := by
  induction ordered with
  | nil => simp at h
  | cons q t ih =>
    rcases List.mem_cons.mp h with h' | h'
    · rw [maxPos, List.foldr_cons, ← h']
      exact Nat.le_max_left _ _
    · calc p ≤ maxPos t := ih h'
        _ ≤ max q.1 (maxPos t) := Nat.le_max_right _ _

theorem le_maxPos_of_alGet {ordered : List (Nat × Int)} {p : Nat} {k : Int}
    (h : alGet ordered p = some k) : p ≤ maxPos ordered :=
  le_maxPos_of_mem (mem_of_alGet h)

theorem alGet_eq_none_of_maxPos_lt {ordered : List (Nat × Int)} {p : Nat}
    (h : maxPos ordered < p) : alGet ordered p = none := by
  cases hg : alGet ordered p with
  | none => rfl
  | some k => exact absurd (le_maxPos_of_alGet hg) (Nat.not_le_of_lt h)

theorem walkPositions_fuel_indep (ordered : List (Nat × Int)) :
    ∀ f₁ f₂ curr, maxPos ordered + 1 < curr + f₁ → maxPos ordered + 1 < curr + f₂ →
      walkPositions ordered curr f₁ = walkPositions ordered curr f₂ := by
  intro f₁
  induction f₁ with
  | zero =>
    intro f₂ curr h₁ h₂
    have hnone : alGet ordered curr = none :=
      alGet_eq_none_of_maxPos_lt (by omega)
    cases f₂ with
    | zero => rfl
    | succ g => simp [walkPositions, hnone]
  | succ g₁ ih =>
    intro f₂ curr h₁ h₂
    cases hg : alGet ordered curr with
    | none =>
      cases f₂ with
      | zero => simp [walkPositions, hg]
      | succ g₂ => simp [walkPositions, hg]
    | some k =>
      have hcurr : curr ≤ maxPos ordered := le_maxPos_of_alGet hg
      cases f₂ with
      | zero => omega
      | succ g₂ =>
        simp only [walkPositions, hg]
        rw [ih g₂ (curr + 1) (by omega) (by omega)]

theorem walkPositions_get (ordered : List (Nat × Int)) :
    ∀ fuel curr i (hi : i < (walkPositions ordered curr fuel).length),
      ((walkPositions ordered curr fuel).get ⟨i, hi⟩).1 = curr + i ∧
        alGet ordered (curr + i) =
          some ((walkPositions ordered curr fuel).get ⟨i, hi⟩).2 := by
  intro fuel
  induction fuel with
  | zero => intro curr i hi; simp [walkPositions] at hi
  | succ g ih =>
    intro curr i hi
    rcases hg : alGet ordered curr with _ | k
    · rw [walkPositions, hg] at hi
      simp at hi
    · have hw : walkPositions ordered curr (g + 1) =
          (curr, k) :: walkPositions ordered (curr + 1) g := by
        rw [walkPositions, hg]
      cases i with
      | zero =>
        refine ⟨?_, ?_⟩ <;> simp [hw, hg]
      | succ j =>
        have hj : j < (walkPositions ordered (curr + 1) g).length := by
          rw [hw] at hi
          simpa using hi
        have := ih (curr + 1) j hj
        have hget : (walkPositions ordered curr (g + 1)).get ⟨j + 1, hi⟩ =
            (walkPositions ordered (curr + 1) g).get ⟨j, hj⟩ := by
          simp [hw]
        rw [hget]
        refine ⟨?_, ?_⟩
        · rw [this.1]; omega
        · have h2 := this.2
          have : curr + (j + 1) = curr + 1 + j := by omega
          rw [this]
          exact h2

theorem walkPositions_end (ordered : List (Nat × Int)) :
    ∀ fuel curr, (walkPositions ordered curr fuel).length < fuel →
      alGet ordered (curr + (walkPositions ordered curr fuel).length) = none := by
  intro fuel
  induction fuel with
  | zero => intro curr h; omega
  | succ g ih =>
    intro curr h
    rcases hg : alGet ordered curr with _ | k
    · have : walkPositions ordered curr (g + 1) = [] := by rw [walkPositions, hg]
      rw [this]
      simpa using hg
    · have hw : walkPositions ordered curr (g + 1) =
          (curr, k) :: walkPositions ordered (curr + 1) g := by
        rw [walkPositions, hg]
      rw [hw] at h ⊢
      simp only [List.length_cons] at h ⊢
      have := ih (curr + 1) (by omega)
      have harith : curr + ((walkPositions ordered (curr + 1) g).length + 1) =
          curr + 1 + (walkPositions ordered (curr + 1) g).length := by omega
      rw [harith]
      exact this

theorem orderedKeys_length_le (s : Ido) :
    (orderedKeys s).length ≤ maxPos s.m_ordered + 1 := by
  by_contra h
  push_neg at h
  have hi : maxPos s.m_ordered + 1 < (orderedKeys s).length := h
  have := walkPositions_get s.m_ordered (maxPos s.m_ordered + 2) 0
    (maxPos s.m_ordered + 1) hi
  have hle := le_maxPos_of_alGet (by simpa using this.2)
  omega

theorem orderedKeys_get (s : Ido) (i : Nat) (hi : i < (orderedKeys s).length) :
    ((orderedKeys s).get ⟨i, hi⟩).1 = i ∧
      alGet s.m_ordered i = some ((orderedKeys s).get ⟨i, hi⟩).2 := by
  have := walkPositions_get s.m_ordered (maxPos s.m_ordered + 2) 0 i hi
  simpa using this

theorem alGet_orderedKeys_length (s : Ido) :
    alGet s.m_ordered (orderedKeys s).length = none := by
  have hlt : (orderedKeys s).length < maxPos s.m_ordered + 2 := by
    have := orderedKeys_length_le s
    omega
  have := walkPositions_end s.m_ordered (maxPos s.m_ordered + 2) 0 hlt
  simpa using this

/-! ### Size bounds: array elements are strictly smaller than their
containing container, so `idoSize` bounds the serialization's nesting
depth. -/

theorem itemSize_lt_of_alGet {items : List (Int × IdoItem)} {key : Int} {it : IdoItem}
    (h : alGet items key = some it) : itemSize it < itemsSize items := by
  induction items with
  | nil => simp [alGet] at h
  | cons p t ih =>
    obtain ⟨a, b⟩ := p
    rw [alGet_cons] at h
    rw [itemsSize]
    by_cases hak : a = key
    · rw [if_pos hak] at h
      obtain rfl : b = it := by simpa using h
      omega
    · rw [if_neg hak] at h
      have := ih h
      omega

theorem idoSize_lt_of_mem {arr : List Ido} {e : Ido} (h : e ∈ arr) :
    idoSize e < arrSize arr := by
  induction arr with
  | nil => simp at h
  | cons a t ih =>
    rw [arrSize]
    rcases List.mem_cons.mp h with h' | h'
    · subst h'; omega
    · have := ih h'
      omega

theorem arrSize_lt_itemSize (it : IdoItem) : arrSize it.m_array < itemSize it := by
  cases it with
  | mk i k s t n f d a => simp [IdoItem.m_array, itemSize]

theorem itemsSize_lt_idoSize (s : Ido) : itemsSize s.m_items < idoSize s := by
  cases s with
  | mk items idx ordered => simp [Ido.m_items, idoSize]

theorem idoSize_elem_lt {s : Ido} {key : Int} {it : IdoItem} {e : Ido}
    (hit : alGet s.m_items key = some it) (he : e ∈ it.m_array) :
    idoSize e < idoSize s := by
  have h1 := idoSize_lt_of_mem he
  have h2 := arrSize_lt_itemSize it
  have h3 := itemSize_lt_of_alGet hit
  have h4 := itemsSize_lt_idoSize s
  omega

theorem idoSize_pos (s : Ido) : 1 ≤ idoSize s := by
  cases s with
  | mk items idx ordered => simp [idoSize]

/-! ### Fuel-independence of the serialization -/

theorem arraySegs_congr {ts₁ ts₂ : Ido → Option String} {key : Int} {es : List Ido}
    (h : ∀ e ∈ es, ts₁ e = ts₂ e) : arraySegs ts₁ key es = arraySegs ts₂ key es := by
  induction es with
  | nil => rfl
  | cons e t ih =>
    rw [arraySegs, arraySegs, h e (List.mem_cons_self _ _),
      ih fun x hx => h x (List.mem_cons_of_mem _ hx)]

theorem toStringGo_congr {ts₁ ts₂ : Ido → Option String} {s : Ido}
    (h : ∀ key it, s.get_item key = some it → ∀ e ∈ it.m_array, ts₁ e = ts₂ e) :
    ∀ l acc count, toStringGo ts₁ s l acc count = toStringGo ts₂ s l acc count := by
  intro l
  induction l with
  | nil => intro acc count; rfl
  | cons pk rest ih =>
    intro acc count
    obtain ⟨p, key⟩ := pk
    rw [toStringGo, toStringGo]
    cases hit : s.get_item key with
    | none => rfl
    | some item =>
      simp only
      cases item.as_string with
      | none => simp only [ih]
      | some vstr =>
        simp only
        by_cases hty : item.get_type = IdoItemType.ARRAY
        · rw [if_pos hty, if_pos hty, arraySegs_congr (h key item hit)]
          cases arraySegs ts₂ key item.m_array with
          | none => rfl
          | some seg => exact ih _ _
        · rw [if_neg hty, if_neg hty]
          exact ih _ _

theorem toStringFuel_stable_aux :
    ∀ n s f₁ f₂, idoSize s ≤ n → idoSize s ≤ f₁ → idoSize s ≤ f₂ →
      toStringFuel f₁ s = toStringFuel f₂ s := by
  intro n
  induction n using Nat.strong_induction_on with
  | _ n ih =>
    intro s f₁ f₂ hn h₁ h₂
    have hs := idoSize_pos s
    obtain ⟨g₁, rfl⟩ : ∃ g, f₁ = g + 1 := ⟨f₁ - 1, by omega⟩
    obtain ⟨g₂, rfl⟩ : ∃ g, f₂ = g + 1 := ⟨f₂ - 1, by omega⟩
    rw [toStringFuel, toStringFuel]
    refine toStringGo_congr (fun key it hit e he => ?_) _ _ _
    have hlt : idoSize e < idoSize s := idoSize_elem_lt hit he
    exact ih (idoSize e) (by omega) e g₁ g₂ (by omega) (by omega) (by omega)

theorem toStringFuel_stable {s : Ido} {f : Nat} (h : idoSize s ≤ f) :
    toStringFuel f s = s.to_string :=
  toStringFuel_stable_aux (idoSize s) s f (idoSize s) le_rfl h le_rfl

/-! ### Projection lemmas -/

theorem Ido.m_items_mk (items : List (Int × IdoItem)) (idx : Nat) (ordered : List (Nat × Int)) :
    (Ido.mk items idx ordered).m_items = items := rfl

theorem Ido.m_idx_mk (items : List (Int × IdoItem)) (idx : Nat) (ordered : List (Nat × Int)) :
    (Ido.mk items idx ordered).m_idx = idx := rfl

theorem Ido.m_ordered_mk (items : List (Int × IdoItem)) (idx : Nat) (ordered : List (Nat × Int)) :
    (Ido.mk items idx ordered).m_ordered = ordered := rfl

theorem Ido.set_item_def (s : Ido) (key : Int) (item : IdoItem) :
    s.set_item key item =
      .mk
        (alInsert s.m_items key
          (.mk s.m_idx key item.m_string item.m_type item.m_integer item.m_float
            item.m_datetime item.m_array))
        (s.m_idx + 1)
        (alInsert
          (match alGet s.m_items key with
            | some value => alErase s.m_ordered value.m_index
            | none => s.m_ordered)
          s.m_idx key) := rfl

/-! ### The container validity invariant and its preservation -/

theorem WF_new : WF Ido.new := by
  refine ⟨?_, ?_, ?_⟩ <;> intro p k h <;> simp [Ido.new, Ido.m_ordered, Ido.m_items, alGet] at h

/-- Under the invariant, a key occurs at most once in the order index. -/
theorem WF_ordered_unique {s : Ido} (hwf : WF s) {p₁ p₂ : Nat} {k : Int}
    (h₁ : alGet s.m_ordered p₁ = some k) (h₂ : alGet s.m_ordered p₂ = some k) :
    p₁ = p₂ := by
  obtain ⟨it₁, hit₁, hidx₁⟩ := hwf.1 p₁ k h₁
  obtain ⟨it₂, hit₂, hidx₂⟩ := hwf.1 p₂ k h₂
  rw [hit₁] at hit₂
  obtain rfl : it₁ = it₂ := by simpa using hit₂
  omega

theorem WF_set_item {s : Ido} (hwf : WF s) (key : Int) (item : IdoItem) :
    WF (s.set_item key item) := by
  obtain ⟨h1, h2, h3⟩ := hwf
  rw [Ido.set_item_def]
  refine ⟨?_, ?_, ?_⟩
  · intro p k h
    rw [Ido.m_ordered_mk, alGet_alInsert] at h
    rw [Ido.m_items_mk]
    by_cases hp : s.m_idx = p
    · rw [if_pos hp] at h
      obtain rfl : key = k := by simpa using h
      exact ⟨_, alGet_alInsert_self _ _ _, hp⟩
    · rw [if_neg hp] at h
      have hold : alGet s.m_ordered p = some k := by
        cases hk : alGet s.m_items key with
        | none => rw [hk] at h; exact h
        | some v =>
          rw [hk, alGet_alErase] at h
          by_cases hpv : p = v.m_index
          · rw [if_pos hpv] at h; exact absurd h (by simp)
          · rw [if_neg hpv] at h; exact h
      by_cases hkkey : k = key
      · subst hkkey
        obtain ⟨it, hit, hidx⟩ := h1 p k hold
        cases hk : alGet s.m_items k with
        | none => rw [hk] at hit; exact absurd hit (by simp)
        | some v =>
          rw [hk, alGet_alErase] at h
          rw [hk] at hit
          obtain rfl : v = it := by simpa using hit
          rw [if_pos hidx.symm] at h
          exact absurd h (by simp)
      · obtain ⟨it, hit, hidx⟩ := h1 p k hold
        exact ⟨it, by rw [alGet_alInsert_ne _ _ _ _ hkkey]; exact hit, hidx⟩
  · intro p k h
    rw [Ido.m_ordered_mk, alGet_alInsert] at h
    rw [Ido.m_idx_mk]
    by_cases hp : s.m_idx = p
    · omega
    · rw [if_neg hp] at h
      have hold : alGet s.m_ordered p = some k := by
        cases hk : alGet s.m_items key with
        | none => rw [hk] at h; exact h
        | some v =>
          rw [hk, alGet_alErase] at h
          by_cases hpv : p = v.m_index
          · rw [if_pos hpv] at h; exact absurd h (by simp)
          · rw [if_neg hpv] at h; exact h
      have := h2 p k hold
      omega
  · intro k it h
    rw [Ido.m_items_mk, alGet_alInsert] at h
    rw [Ido.m_idx_mk]
    by_cases hk : key = k
    · rw [if_pos hk] at h
      obtain rfl : _ = it := by exact (Option.some_inj.mp h)
      simp [IdoItem.m_index]
    · rw [if_neg hk] at h
      have := h3 k it h
      omega

theorem WF_set_string {s : Ido} (hwf : WF s) (key : Int) (val : String) :
    WF (s.set_string key val) :=
  WF_set_item hwf key _

theorem WF_set_integer {s : Ido} (hwf : WF s) (key : Int) (val : Int) :
    WF (s.set_integer key val) :=
  WF_set_item hwf key _

theorem WF_set_f64 {s : Ido} (hwf : WF s) (key : Int) (val : Float) :
    WF (s.set_f64 key val) :=
  WF_set_item hwf key _

theorem WF_clear (s : Ido) : WF (s.clear) := by
  refine ⟨?_, ?_, ?_⟩ <;> intro p k h <;>
    simp [Ido.clear, Ido.m_ordered, Ido.m_items, alGet] at h

theorem WF_delete_item {s : Ido} (hwf : WF s) (key : Int) :
    WF (s.delete_item key) := by
  obtain ⟨h1, h2, h3⟩ := hwf
  rw [Ido.delete_item]
  cases hk : alGet s.m_items key with
  | none => exact ⟨h1, h2, h3⟩
  | some v =>
    refine ⟨?_, ?_, ?_⟩
    · intro p k h
      rw [Ido.m_ordered_mk, alGet_alErase] at h
      by_cases hpv : p = v.m_index
      · rw [if_pos hpv] at h; exact absurd h (by simp)
      · rw [if_neg hpv] at h
        obtain ⟨it, hit, hidx⟩ := h1 p k h
        have hkkey : ¬k = key := by
          intro hkk
          subst hkk
          rw [hk] at hit
          obtain rfl : v = it := by simpa using hit
          omega
        rw [Ido.m_items_mk]
        exact ⟨it, by rw [alGet_alErase, if_neg hkkey]; exact hit, hidx⟩
    · intro p k h
      rw [Ido.m_ordered_mk, alGet_alErase] at h
      by_cases hpv : p = v.m_index
      · rw [if_pos hpv] at h; exact absurd h (by simp)
      · rw [if_neg hpv] at h
        exact h2 p k h
    · intro k it h
      rw [Ido.m_items_mk, alGet_alErase] at h
      by_cases hkk : k = key
      · rw [if_pos hkk] at h; exact absurd h (by simp)
      · rw [if_neg hkk] at h
        exact h3 k it h

theorem WF_empty_array {s : Ido} (hwf : WF s) (key : Int) :
    WF (s.empty_array key) :=
  WF_set_item hwf key _

theorem WF_append_array {s : Ido} (hwf : WF s) (key : Int) (data : Ido) :
    WF (s.append_array key data) := by
  rw [Ido.append_array]
  have step :
      ∀ s₁ : Ido, WF s₁ →
        WF (match alGet s₁.m_items key with
          | some value =>
              Ido.mk
                (alInsert s₁.m_items key
                  (.mk value.m_index value.m_key value.m_string .ARRAY value.m_integer
                    value.m_float value.m_datetime (value.m_array ++ [data])))
                s₁.m_idx s₁.m_ordered
          | none => s₁) := by
    intro s₁ hwf₁
    obtain ⟨h1, h2, h3⟩ := hwf₁
    cases hk : alGet s₁.m_items key with
    | none => exact ⟨h1, h2, h3⟩
    | some v =>
      refine ⟨?_, ?_, ?_⟩
      · intro p k h
        rw [Ido.m_ordered_mk] at h
        obtain ⟨it, hit, hidx⟩ := h1 p k h
        rw [Ido.m_items_mk, alGet_alInsert]
        by_cases hkk : key = k
        · subst hkk
          rw [if_pos rfl]
          rw [hk] at hit
          obtain rfl : v = it := by simpa using hit
          exact ⟨_, rfl, hidx⟩
        · rw [if_neg hkk]
          exact ⟨it, hit, hidx⟩
      · intro p k h
        rw [Ido.m_ordered_mk] at h
        rw [Ido.m_idx_mk]
        exact h2 p k h
      · intro k it h
        rw [Ido.m_items_mk, alGet_alInsert] at h
        rw [Ido.m_idx_mk]
        by_cases hkk : key = k
        · rw [if_pos hkk] at h
          have hv := h3 k v (hkk ▸ hk)
          obtain rfl : _ = it := Option.some_inj.mp h
          simpa [IdoItem.m_index] using hv
        · rw [if_neg hkk] at h
          exact h3 k it h
  cases hk : alGet s.m_items key with
  | none => exact step _ (WF_empty_array hwf key)
  | some value =>
    by_cases hty : value.m_type ≠ IdoItemType.ARRAY
    · simp only [if_pos hty]
      exact step _ (WF_empty_array hwf key)
    · simp only [if_neg hty]
      exact step _ hwf

theorem WF_applyOp {s : Ido} (hwf : WF s) (op : IdoOp) : WF (applyOp s op) := by
  cases op with
  | setItem key item => exact WF_set_item hwf key item
  | setString key val => exact WF_set_string hwf key val
  | setInteger key val => exact WF_set_integer hwf key val
  | setF64 key val => exact WF_set_f64 hwf key val
  | appendArray key data => exact WF_append_array hwf key data
  | deleteItem key => exact WF_delete_item hwf key
  | clear => exact WF_clear s

theorem WF_foldl {s : Ido} (hwf : WF s) (ops : List IdoOp) :
    WF (ops.foldl applyOp s) := by
  induction ops generalizing s with
  | nil => exact hwf
  | cons op t ih => exact ih (WF_applyOp hwf op)

theorem WF_of_Reachable {s : Ido} (h : Reachable s) : WF s := by
  obtain ⟨ops, rfl⟩ := h
  exact WF_foldl WF_new ops

/-! ### The ordered iterator: step equations and trace characterization -/

theorem next_ended {s : Ido} {curr : Nat} (h : alGet s.m_ordered curr = none) :
    OrderedIdoIterator.next ⟨s, curr⟩ = .ended := by
  simp [OrderedIdoIterator.next, h]

theorem next_yield {s : Ido} {curr : Nat} {key : Int} {item : IdoItem}
    (h1 : alGet s.m_ordered curr = some key) (h2 : s.get_item key = some item) :
    OrderedIdoIterator.next ⟨s, curr⟩ = .yield key item ⟨s, curr + 1⟩ := by
  simp [OrderedIdoIterator.next, h1, h2]

theorem next_fault {s : Ido} {curr : Nat} {key : Int}
    (h1 : alGet s.m_ordered curr = some key) (h2 : s.get_item key = none) :
    OrderedIdoIterator.next ⟨s, curr⟩ = .fault := by
  simp [OrderedIdoIterator.next, h1, h2]

theorem WF_get_item_isSome {s : Ido} (hwf : WF s) {p : Nat} {k : Int}
    (h : alGet s.m_ordered p = some k) : (s.get_item k).isSome := by
  obtain ⟨it, hit, _⟩ := hwf.1 p k h
  rw [Ido.get_item, hit]
  rfl

theorem WF_next_ne_fault {s : Ido} (hwf : WF s) (curr : Nat) :
    OrderedIdoIterator.next ⟨s, curr⟩ ≠ .fault := by
  cases hcur : alGet s.m_ordered curr with
  | none => rw [next_ended hcur]; intro h; exact IterNext.noConfusion h
  | some key =>
    have := WF_get_item_isSome hwf hcur
    cases hitem : s.get_item key with
    | none => rw [hitem] at this; exact absurd this (by simp)
    | some item => rw [next_yield hcur hitem]; intro h; exact IterNext.noConfusion h

theorem iterTraceFuel_get (s : Ido)
    (hnf : ∀ pk ∈ s.m_ordered, (s.get_item pk.2).isSome) :
    ∀ fuel curr i (hi : i < (iterTraceFuel ⟨s, curr⟩ fuel).length),
      alGet s.m_ordered (curr + i) =
          some ((iterTraceFuel ⟨s, curr⟩ fuel).get ⟨i, hi⟩).1 ∧
        s.get_item ((iterTraceFuel ⟨s, curr⟩ fuel).get ⟨i, hi⟩).1 =
          some ((iterTraceFuel ⟨s, curr⟩ fuel).get ⟨i, hi⟩).2 := by
  intro fuel
  induction fuel with
  | zero => intro curr i hi; simp [iterTraceFuel] at hi
  | succ g ih =>
    intro curr i hi
    cases hcur : alGet s.m_ordered curr with
    | none =>
      rw [iterTraceFuel, next_ended hcur] at hi
      simp at hi
    | some key =>
      cases hitem : s.get_item key with
      | none =>
        have := hnf (curr, key) (mem_of_alGet hcur)
        rw [hitem] at this
        exact absurd this (by simp)
      | some item =>
        have hw : iterTraceFuel ⟨s, curr⟩ (g + 1) =
            (key, item) :: iterTraceFuel ⟨s, curr + 1⟩ g := by
          rw [iterTraceFuel, next_yield hcur hitem]
        cases i with
        | zero =>
          refine ⟨?_, ?_⟩ <;> simp [hw, hcur, hitem]
        | succ j =>
          have hj : j < (iterTraceFuel ⟨s, curr + 1⟩ g).length := by
            rw [hw] at hi
            simpa using hi
          have := ih (curr + 1) j hj
          have hget : (iterTraceFuel ⟨s, curr⟩ (g + 1)).get ⟨j + 1, hi⟩ =
              (iterTraceFuel ⟨s, curr + 1⟩ g).get ⟨j, hj⟩ := by
            simp [hw]
          rw [hget]
          have harith : curr + (j + 1) = curr + 1 + j := by omega
          rw [harith]
          exact this

theorem iterTraceFuel_end (s : Ido)
    (hnf : ∀ pk ∈ s.m_ordered, (s.get_item pk.2).isSome) :
    ∀ fuel curr, (iterTraceFuel ⟨s, curr⟩ fuel).length < fuel →
      alGet s.m_ordered (curr + (iterTraceFuel ⟨s, curr⟩ fuel).length) = none := by
  intro fuel
  induction fuel with
  | zero => intro curr h; omega
  | succ g ih =>
    intro curr h
    cases hcur : alGet s.m_ordered curr with
    | none =>
      have hw : iterTraceFuel ⟨s, curr⟩ (g + 1) = [] := by
        rw [iterTraceFuel, next_ended hcur]
      rw [hw]
      simpa using hcur
    | some key =>
      cases hitem : s.get_item key with
      | none =>
        have := hnf (curr, key) (mem_of_alGet hcur)
        rw [hitem] at this
        exact absurd this (by simp)
      | some item =>
        have hw : iterTraceFuel ⟨s, curr⟩ (g + 1) =
            (key, item) :: iterTraceFuel ⟨s, curr + 1⟩ g := by
          rw [iterTraceFuel, next_yield hcur hitem]
        rw [hw] at h ⊢
        simp only [List.length_cons] at h ⊢
        have := ih (curr + 1) (by omega)
        have harith : curr + ((iterTraceFuel ⟨s, curr + 1⟩ g).length + 1) =
            curr + 1 + (iterTraceFuel ⟨s, curr + 1⟩ g).length := by omega
        rw [harith]
        exact this

theorem ordSeq_length_le (s : Ido)
    (hnf : ∀ pk ∈ s.m_ordered, (s.get_item pk.2).isSome) :
    (ordSeq s).length ≤ maxPos s.m_ordered + 1 := by
  by_contra h
  push_neg at h
  have hi : maxPos s.m_ordered + 1 < (ordSeq s).length := h
  have := iterTraceFuel_get s hnf (maxPos s.m_ordered + 2) 0 (maxPos s.m_ordered + 1) hi
  have hle := le_maxPos_of_alGet (by simpa using this.1)
  omega

theorem ordSeq_get (s : Ido)
    (hnf : ∀ pk ∈ s.m_ordered, (s.get_item pk.2).isSome)
    (i : Nat) (hi : i < (ordSeq s).length) :
    alGet s.m_ordered i = some ((ordSeq s).get ⟨i, hi⟩).1 ∧
      s.get_item ((ordSeq s).get ⟨i, hi⟩).1 = some ((ordSeq s).get ⟨i, hi⟩).2 := by
  have := iterTraceFuel_get s hnf (maxPos s.m_ordered + 2) 0 i hi
  simpa using this

theorem alGet_ordSeq_length (s : Ido)
    (hnf : ∀ pk ∈ s.m_ordered, (s.get_item pk.2).isSome) :
    alGet s.m_ordered (ordSeq s).length = none := by
  have hlt : (ordSeq s).length < maxPos s.m_ordered + 2 := by
    have := ordSeq_length_le s hnf
    omega
  have := iterTraceFuel_end s hnf (maxPos s.m_ordered + 2) 0 hlt
  simpa using this

/-! ### Further association-list facts -/

theorem IdoItem.m_index_mk (i : Nat) (k : Int) (st : String) (t : IdoItemType)
    (n : Int) (f : Float) (d : DateTimeUtc) (a : List Ido) :
    (IdoItem.mk i k st t n f d a).m_index = i := rfl

theorem IdoItem.m_key_mk (i : Nat) (k : Int) (st : String) (t : IdoItemType)
    (n : Int) (f : Float) (d : DateTimeUtc) (a : List Ido) :
    (IdoItem.mk i k st t n f d a).m_key = k := rfl

theorem IdoItem.m_string_mk (i : Nat) (k : Int) (st : String) (t : IdoItemType)
    (n : Int) (f : Float) (d : DateTimeUtc) (a : List Ido) :
    (IdoItem.mk i k st t n f d a).m_string = st := rfl

theorem IdoItem.m_type_mk (i : Nat) (k : Int) (st : String) (t : IdoItemType)
    (n : Int) (f : Float) (d : DateTimeUtc) (a : List Ido) :
    (IdoItem.mk i k st t n f d a).m_type = t := rfl

theorem IdoItem.m_integer_mk (i : Nat) (k : Int) (st : String) (t : IdoItemType)
    (n : Int) (f : Float) (d : DateTimeUtc) (a : List Ido) :
    (IdoItem.mk i k st t n f d a).m_integer = n := rfl

theorem IdoItem.m_array_mk (i : Nat) (k : Int) (st : String) (t : IdoItemType)
    (n : Int) (f : Float) (d : DateTimeUtc) (a : List Ido) :
    (IdoItem.mk i k st t n f d a).m_array = a := rfl

theorem alGet_none_of_not_mem_keys {α β : Type} [DecidableEq α] {l : List (α × β)} {k : α}
    (h : k ∉ l.map Prod.fst) : alGet l k = none := by
  refine alGet_eq_none_of_forall_ne fun p hp hpk => h ?_
  exact hpk ▸ List.mem_map_of_mem Prod.fst hp

theorem not_mem_keys_of_alGet_none {α β : Type} [DecidableEq α] {l : List (α × β)} {k : α}
    (h : alGet l k = none) : k ∉ l.map Prod.fst := by
  induction l with
  | nil => simp
  | cons q t ih =>
    obtain ⟨a, b⟩ := q
    rw [alGet_cons] at h
    by_cases hq : a = k
    · rw [if_pos hq] at h
      exact Option.noConfusion h
    · rw [if_neg hq] at h
      simp only [List.map_cons, List.mem_cons]
      rintro (h' | h')
      · exact hq h'.symm
      · exact ih h h'

theorem alErase_eq_self_of_not_mem {α β : Type} [DecidableEq α] {l : List (α × β)} {k : α}
    (h : ∀ p ∈ l, p.1 ≠ k) : alErase l k = l := by
  induction l with
  | nil => rfl
  | cons p t ih =>
    obtain ⟨a, b⟩ := p
    rw [alErase, if_neg (h (a, b) (List.mem_cons_self _ _)),
      ih fun q hq => h q (List.mem_cons_of_mem _ hq)]

theorem length_alErase_of_nodup {α β : Type} [DecidableEq α] {l : List (α × β)} {k : α} {v : β}
    (hnd : (l.map Prod.fst).Nodup) (h : alGet l k = some v) :
    (alErase l k).length + 1 = l.length := by
  induction l with
  | nil => simp [alGet] at h
  | cons p t ih =>
    obtain ⟨a, b⟩ := p
    rw [List.map_cons, List.nodup_cons] at hnd
    rw [alGet_cons] at h
    by_cases hak : a = k
    · rw [alErase, if_pos hak]
      have : alErase t k = t := by
        refine alErase_eq_self_of_not_mem fun q hq hqk => ?_
        have hmem : q.1 ∈ t.map Prod.fst := List.mem_map_of_mem Prod.fst hq
        rw [hqk, ← hak] at hmem
        exact hnd.1 hmem
      rw [this]
      simp
    · rw [if_neg hak] at h
      rw [alErase, if_neg hak]
      have := ih hnd.2 h
      simp only [List.length_cons]
      omega

theorem mem_alErase {α β : Type} [DecidableEq α] {l : List (α × β)} {k : α} {p : α × β}
    (h : p ∈ alErase l k) : p ∈ l ∧ p.1 ≠ k := by
  induction l with
  | nil => simp [alErase] at h
  | cons q t ih =>
    obtain ⟨a, b⟩ := q
    rw [alErase] at h
    by_cases hak : a = k
    · rw [if_pos hak] at h
      obtain ⟨hp, hne⟩ := ih h
      exact ⟨List.mem_cons_of_mem _ hp, hne⟩
    · rw [if_neg hak] at h
      rcases List.mem_cons.mp h with h' | h'
      · subst h'
        exact ⟨List.mem_cons_self _ _, hak⟩
      · obtain ⟨hp, hne⟩ := ih h'
        exact ⟨List.mem_cons_of_mem _ hp, hne⟩

theorem alGet_foldl_alInsert_of_none {α β : Type} [DecidableEq α]
    {l : List (α × β)} {k : α} (m : List (α × β)) (h : alGet l k = none) :
    alGet (l.foldl (fun acc kv => alInsert acc kv.1 kv.2) m) k = alGet m k := by
  induction l generalizing m with
  | nil => rfl
  | cons q t ih =>
    obtain ⟨a, b⟩ := q
    rw [alGet_cons] at h
    by_cases hak : a = k
    · rw [if_pos hak] at h
      exact Option.noConfusion h
    · rw [if_neg hak] at h
      rw [List.foldl_cons, ih _ h, alGet_alInsert_ne _ _ _ _ (fun hh => hak hh.symm)]

theorem alGet_foldl_alInsert_of_some {α β : Type} [DecidableEq α]
    {l : List (α × β)} {k : α} {v : β} (m : List (α × β))
    (hnd : (l.map Prod.fst).Nodup) (h : alGet l k = some v) :
    alGet (l.foldl (fun acc kv => alInsert acc kv.1 kv.2) m) k = some v := by
  induction l generalizing m with
  | nil => simp [alGet] at h
  | cons q t ih =>
    obtain ⟨a, b⟩ := q
    rw [List.map_cons, List.nodup_cons] at hnd
    rw [alGet_cons] at h
    by_cases hak : a = k
    · rw [if_pos hak] at h
      obtain rfl : b = v := by simpa using h
      have htk : alGet t k = none := by
        refine alGet_eq_none_of_forall_ne fun p hp hpk => ?_
        have hmem : p.1 ∈ t.map Prod.fst := List.mem_map_of_mem Prod.fst hp
        rw [hpk, ← hak] at hmem
        exact hnd.1 hmem
      rw [List.foldl_cons, alGet_foldl_alInsert_of_none _ htk, hak,
        alGet_alInsert_self]
    · rw [if_neg hak] at h
      rw [List.foldl_cons, ih _ hnd.2 h]

theorem mem_key_of_walkPositions {ordered : List (Nat × Int)} :
    ∀ fuel curr pk, pk ∈ walkPositions ordered curr fuel →
      alGet ordered pk.1 = some pk.2 := by
  intro fuel
  induction fuel with
  | zero => intro curr pk h; simp [walkPositions] at h
  | succ g ih =>
    intro curr pk h
    cases hg : alGet ordered curr with
    | none => rw [walkPositions, hg] at h; simp at h
    | some k =>
      rw [walkPositions, hg] at h
      rcases List.mem_cons.mp h with h' | h'
      · subst h'; exact hg
      · exact ih (curr + 1) pk h'

theorem mem_key_of_iterTraceFuel {s : Ido} :
    ∀ fuel curr pr, pr ∈ iterTraceFuel ⟨s, curr⟩ fuel →
      ∃ p, alGet s.m_ordered p = some pr.1 := by
  intro fuel
  induction fuel with
  | zero => intro curr pr h; simp [iterTraceFuel] at h
  | succ g ih =>
    intro curr pr h
    cases hcur : alGet s.m_ordered curr with
    | none => rw [iterTraceFuel, next_ended hcur] at h; simp at h
    | some key =>
      cases hitem : s.get_item key with
      | none => rw [iterTraceFuel, next_fault hcur hitem] at h; simp at h
      | some item =>
        rw [iterTraceFuel, next_yield hcur hitem] at h
        rcases List.mem_cons.mp h with h' | h'
        · exact ⟨curr, by rw [hcur, h']⟩
        · exact ih (curr + 1) pr h'

theorem foldl_set_item_m_idx (l : List (Int × IdoItem)) :
    ∀ t : Ido, (l.foldl (fun u kv => u.set_item kv.1 kv.2) t).m_idx =
      t.m_idx + l.length := by
  induction l with
  | nil => intro t; simp
  | cons kv rest ih =>
    intro t
    rw [List.foldl_cons, ih]
    have : (t.set_item kv.1 kv.2).m_idx = t.m_idx + 1 := rfl
    rw [this]
    simp only [List.length_cons]
    omega

/-! ### Claim theorems -/

/-- C2: ordered iteration yields (key, Value) pairs by looking up
order-index positions 0, 1, 2, … in sequence — `next` returns the
end-of-sequence signal exactly at a position absent from the order index,
yields the looked-up pair at a present position, and the full yield
sequence `ordSeq` pairs position `i` with its `i`-th element and stops at
the first absent position instead of skipping it. -/
theorem c2_ordered_iteration (s : Ido)
    (hnf : ∀ pk ∈ s.m_ordered, (s.get_item pk.2).isSome) :
    (∀ curr, alGet s.m_ordered curr = none →
        OrderedIdoIterator.next ⟨s, curr⟩ = .ended) ∧
      (∀ curr key item, alGet s.m_ordered curr = some key →
        s.get_item key = some item →
          OrderedIdoIterator.next ⟨s, curr⟩ = .yield key item ⟨s, curr + 1⟩) ∧
      (∀ i (hi : i < (ordSeq s).length),
        alGet s.m_ordered i = some ((ordSeq s).get ⟨i, hi⟩).1 ∧
          s.get_item ((ordSeq s).get ⟨i, hi⟩).1 = some ((ordSeq s).get ⟨i, hi⟩).2) ∧
      alGet s.m_ordered (ordSeq s).length = none :=
  ⟨fun _ h => next_ended h,
    fun _ _ _ h1 h2 => next_yield h1 h2,
    fun i hi => ordSeq_get s hnf i hi,
    alGet_ordSeq_length s hnf⟩

/-- Witness for C2 at the overwrite example: position 0 is a gap while
positions 1 and 2 are occupied, and the iteration stops at once (its
yield sequence is empty) instead of skipping to position 1. -/
theorem c2_ordered_iteration_witness :
    (∀ pk ∈ exOverwrite.m_ordered, (exOverwrite.get_item pk.2).isSome) ∧
      alGet exOverwrite.m_ordered (ordSeq exOverwrite).length = none ∧
      (ordSeq exOverwrite).length = 0 ∧
      alGet exOverwrite.m_ordered 1 = some 2 :=
  ⟨by decide, (c2_ordered_iteration exOverwrite (by decide)).2.2.2, by decide, by decide⟩

/-- C6: a container reachable from a fresh one through the public
operations (`update` excluded) is valid: the order index points only at
keys present in the value map with the matching stored index (`WF`), the
lookup done by the ordered iterator for a present position always
succeeds, a key occupies at most one order position, and the iterator's
panic branch is unreachable. -/
theorem c6_reachable_safety (s : Ido) (h : Reachable s) :
    WF s ∧
      (∀ p k, alGet s.m_ordered p = some k → (s.get_item k).isSome) ∧
      (∀ p₁ p₂ k, alGet s.m_ordered p₁ = some k → alGet s.m_ordered p₂ = some k →
        p₁ = p₂) ∧
      (∀ curr, OrderedIdoIterator.next ⟨s, curr⟩ ≠ .fault) := by
  have hwf := WF_of_Reachable h
  exact ⟨hwf, fun p k hp => WF_get_item_isSome hwf hp,
    fun p₁ p₂ k h₁ h₂ => WF_ordered_unique hwf h₁ h₂,
    WF_next_ne_fault hwf⟩

/-- Witness for C6 at the overwrite example, reached by three
`set_string` operations. -/
theorem c6_reachable_safety_witness :
    Reachable exOverwrite ∧ WF exOverwrite :=
  have hr : Reachable exOverwrite :=
    ⟨[.setString 1 "A", .setString 2 "B", .setString 1 "C"], rfl⟩
  ⟨hr, (c6_reachable_safety exOverwrite hr).1⟩

/-- C8: a typed getter is present exactly when the key is stored with the
getter's variant family (String for `get_string`, Integer for every
integer-width getter, Float for `get_f64`), and `is_type` is true exactly
for a present key of that tag, collapsing "absent" and "wrong type" to
false. -/
theorem c8_typed_getters (s : Ido) (key : Int) :
    (∀ ty, s.is_type key ty = true ↔
        ∃ v, alGet s.m_items key = some v ∧ v.m_type = ty) ∧
      (s.get_string key).isSome = s.is_type key .STRING ∧
      (s.get_i64 key).isSome = s.is_type key .INTEGER ∧
      (s.get_i32 key).isSome = s.is_type key .INTEGER ∧
      (s.get_i16 key).isSome = s.is_type key .INTEGER ∧
      (s.get_i8 key).isSome = s.is_type key .INTEGER ∧
      (s.get_u64 key).isSome = s.is_type key .INTEGER ∧
      (s.get_u32 key).isSome = s.is_type key .INTEGER ∧
      (s.get_u16 key).isSome = s.is_type key .INTEGER ∧
      (s.get_u8 key).isSome = s.is_type key .INTEGER ∧
      (s.get_f64 key).isSome = s.is_type key .FLOAT := by
  refine ⟨?_, ?_, ?_, ?_, ?_, ?_, ?_, ?_, ?_, ?_, ?_⟩
  · intro ty
    rw [Ido.is_type]
    cases hk : alGet s.m_items key with
    | none => simp
    | some v => simp
  · rw [Ido.get_string, Ido.is_type]
    cases hk : alGet s.m_items key with
    | none => rfl
    | some v => by_cases hv : v.m_type = IdoItemType.STRING <;> simp [hv]
  · rw [Ido.get_i64, Ido.is_type]
    cases hk : alGet s.m_items key with
    | none => rfl
    | some v => by_cases hv : v.m_type = IdoItemType.INTEGER <;> simp [hv]
  · rw [Ido.get_i32, Ido.is_type]
    cases hk : alGet s.m_items key with
    | none => rfl
    | some v => by_cases hv : v.m_type = IdoItemType.INTEGER <;> simp [hv]
  · rw [Ido.get_i16, Ido.is_type]
    cases hk : alGet s.m_items key with
    | none => rfl
    | some v => by_cases hv : v.m_type = IdoItemType.INTEGER <;> simp [hv]
  · rw [Ido.get_i8, Ido.is_type]
    cases hk : alGet s.m_items key with
    | none => rfl
    | some v => by_cases hv : v.m_type = IdoItemType.INTEGER <;> simp [hv]
  · rw [Ido.get_u64, Ido.is_type]
    cases hk : alGet s.m_items key with
    | none => rfl
    | some v => by_cases hv : v.m_type = IdoItemType.INTEGER <;> simp [hv]
  · rw [Ido.get_u32, Ido.is_type]
    cases hk : alGet s.m_items key with
    | none => rfl
    | some v => by_cases hv : v.m_type = IdoItemType.INTEGER <;> simp [hv]
  · rw [Ido.get_u16, Ido.is_type]
    cases hk : alGet s.m_items key with
    | none => rfl
    | some v => by_cases hv : v.m_type = IdoItemType.INTEGER <;> simp [hv]
  · rw [Ido.get_u8, Ido.is_type]
    cases hk : alGet s.m_items key with
    | none => rfl
    | some v => by_cases hv : v.m_type = IdoItemType.INTEGER <;> simp [hv]
  · rw [Ido.get_f64, Ido.is_type]
    cases hk : alGet s.m_items key with
    | none => rfl
    | some v => by_cases hv : v.m_type = IdoItemType.FLOAT <;> simp [hv]

/-- Witness for C8: after `set_string(1, "x")`, `get_i32(1)` is absent,
`is_type(1, Integer)` is false and `is_type(1, String)` is true. -/
theorem c8_typed_getters_witness :
    (Ido.new.set_string 1 "x").get_i32 1 = none ∧
      (Ido.new.set_string 1 "x").is_type 1 .INTEGER = false ∧
      (Ido.new.set_string 1 "x").is_type 1 .STRING = true := by
  have h := (c8_typed_getters (Ido.new.set_string 1 "x") 1).2.2.2.1
  refine ⟨?_, by decide, by decide⟩
  cases hx : (Ido.new.set_string 1 "x").get_i32 1 with
  | none => rfl
  | some v =>
    rw [hx] at h
    have hfalse : (Ido.new.set_string 1 "x").is_type 1 .INTEGER = false := by decide
    rw [hfalse] at h
    exact absurd h (by simp)

/-- C9: after `set_integer(k, n)` with a 64-bit `n`, every narrowing
integer getter returns the stored value silently truncated to its target
width (`asSigned` / `asUnsigned`), never the absent signal. -/
theorem c9_narrowing_getters (s : Ido) (key : Int) (n : Int)
    (_h1 : -(2 ^ 63) ≤ n) (_h2 : n < 2 ^ 63) :
    (s.set_integer key n).get_i64 key = some n ∧
      (s.set_integer key n).get_i32 key = some (asSigned 32 n) ∧
      (s.set_integer key n).get_i16 key = some (asSigned 16 n) ∧
      (s.set_integer key n).get_i8 key = some (asSigned 8 n) ∧
      (s.set_integer key n).get_u64 key = some (asUnsigned 64 n) ∧
      (s.set_integer key n).get_u32 key = some (asUnsigned 32 n) ∧
      (s.set_integer key n).get_u16 key = some (asUnsigned 16 n) ∧
      (s.set_integer key n).get_u8 key = some (asUnsigned 8 n) := by
  have hget : alGet (s.set_integer key n).m_items key =
      some (.mk s.m_idx key "" .INTEGER n 0.0 DateTimeUtc.minUtc []) := by
    rw [Ido.set_integer, Ido.set_item_def, Ido.m_items_mk]
    exact alGet_alInsert_self s.m_items key _
  refine ⟨?_, ?_, ?_, ?_, ?_, ?_, ?_, ?_⟩ <;>
    simp [Ido.get_i64, Ido.get_i32, Ido.get_i16, Ido.get_i8, Ido.get_u64,
      Ido.get_u32, Ido.get_u16, Ido.get_u8, hget, IdoItem.m_type_mk,
      IdoItem.m_integer_mk]

/-- Witness for C9: `set_integer(1, 300)` then `get_i8(1)` returns the
8-bit truncation 44, not the absent signal. -/
theorem c9_narrowing_getters_witness :
    -(2 ^ 63) ≤ (300 : Int) ∧ (300 : Int) < 2 ^ 63 ∧
      (Ido.new.set_integer 1 300).get_i8 1 = some 44 := by
  have h := c9_narrowing_getters Ido.new 1 300 (by decide) (by decide)
  exact ⟨by decide, by decide, h.2.2.2.1.trans (by decide)⟩

/-- C5: each `set_item` stamps the current counter value as the new
entry's order position, inserts it into the order index, removes the
overwritten key's old order entry, and increments the counter by exactly
one; consequently the positions assigned by a sequence of sets on a fresh
container are 0, 1, 2, … (the counter before the `i`-th set is `i`), and
positions present in the order index of a valid state are below the
counter, so a fresh position is never a reused one. -/
theorem c5_order_counter (s : Ido) (key : Int) (item : IdoItem)
    (ops : List (Int × IdoItem)) :
    (s.set_item key item).m_idx = s.m_idx + 1 ∧
      alGet (s.set_item key item).m_ordered s.m_idx = some key ∧
      (∃ it, alGet (s.set_item key item).m_items key = some it ∧
        it.m_index = s.m_idx) ∧
      (∀ old, alGet s.m_items key = some old → old.m_index ≠ s.m_idx →
        alGet (s.set_item key item).m_ordered old.m_index = none) ∧
      (WF s → ∀ p, alGet s.m_ordered p = some key → p < s.m_idx) ∧
      (∀ i, i ≤ ops.length →
        ((ops.take i).foldl (fun t kv => t.set_item kv.1 kv.2) Ido.new).m_idx = i) := by
  refine ⟨rfl, ?_, ?_, ?_, ?_, ?_⟩
  · rw [Ido.set_item_def, Ido.m_ordered_mk]
    exact alGet_alInsert_self _ _ _
  · rw [Ido.set_item_def, Ido.m_items_mk]
    exact ⟨_, alGet_alInsert_self _ _ _, rfl⟩
  · intro old hold hne
    rw [Ido.set_item_def, Ido.m_ordered_mk, hold,
      alGet_alInsert_ne _ _ _ _ hne, alGet_alErase, if_pos rfl]
  · intro hwf p hp
    exact hwf.2.1 p key hp
  · intro i hi
    rw [foldl_set_item_m_idx]
    have : (ops.take i).length = i := by
      rw [List.length_take]
      omega
    rw [this]
    have hnew : Ido.new.m_idx = 0 := rfl
    rw [hnew]
    omega

/-- Witness for C5 at a concrete overwrite: `set(1, item)` twice from
fresh assigns positions 0 then 1, erases position 0, and the counter
after two sets is 2. -/
theorem c5_order_counter_witness :
    ((Ido.new.set_item 1 IdoItem.new).set_item 1 IdoItem.new).m_idx =
        (Ido.new.set_item 1 IdoItem.new).m_idx + 1 ∧
      alGet ((Ido.new.set_item 1 IdoItem.new).set_item 1 IdoItem.new).m_ordered
          (Ido.new.set_item 1 IdoItem.new).m_idx = some 1 ∧
      alGet ((Ido.new.set_item 1 IdoItem.new).set_item 1 IdoItem.new).m_ordered 0 =
        none := by
  have h := c5_order_counter (Ido.new.set_item 1 IdoItem.new) 1 IdoItem.new []
  refine ⟨h.1, h.2.1, ?_⟩
  have := h.2.2.2.1 (.mk 0 1 "" .STRING 0 0.0 DateTimeUtc.minUtc []) rfl (by decide)
  exact this

/-- C10: `delete_item` on a present key removes the value-map entry and
its order-index entry — afterwards the key fails `contains`, is gone from
`size` (down by one) and from both iterations — while on an absent key it
is a no-op returning the state unchanged. -/
theorem c10_delete_item (s : Ido) (key : Int) (hwf : WF s)
    (hnd : (s.m_items.map Prod.fst).Nodup) :
    (∀ v, alGet s.m_items key = some v →
        (s.delete_item key).contains key = false ∧
        alGet (s.delete_item key).m_ordered v.m_index = none ∧
        (s.delete_item key).size + 1 = s.size ∧
        (∀ pr ∈ (s.delete_item key).m_items, pr.1 ≠ key) ∧
        (∀ p k', alGet (s.delete_item key).m_ordered p = some k' → k' ≠ key)) ∧
      (alGet s.m_items key = none → s.delete_item key = s) := by
  constructor
  · intro v hv
    have hdel : s.delete_item key =
        .mk (alErase s.m_items key) s.m_idx (alErase s.m_ordered v.m_index) := by
      rw [Ido.delete_item, hv]
    refine ⟨?_, ?_, ?_, ?_, ?_⟩
    · rw [hdel, Ido.contains, Ido.m_items_mk, alGet_alErase, if_pos rfl]
      rfl
    · rw [hdel, Ido.m_ordered_mk, alGet_alErase, if_pos rfl]
    · rw [hdel, Ido.size, Ido.m_items_mk, Ido.size]
      exact length_alErase_of_nodup hnd hv
    · intro pr hpr
      rw [hdel, Ido.m_items_mk] at hpr
      exact (mem_alErase hpr).2
    · intro p k' hp hk'
      subst hk'
      rw [hdel, Ido.m_ordered_mk, alGet_alErase] at hp
      by_cases hpv : p = v.m_index
      · rw [if_pos hpv] at hp
        exact Option.noConfusion hp
      · rw [if_neg hpv] at hp
        obtain ⟨it, hit, hidx⟩ := hwf.1 p k' hp
        rw [hv] at hit
        obtain rfl : v = it := by simpa using hit
        omega
  · intro hnone
    rw [Ido.delete_item, hnone]

/-- Witness for C10: deleting present key 1 from a two-entry container
removes it from `contains` and shrinks `size`; deleting absent key 5 is
an exact no-op. -/
theorem c10_delete_item_witness :
    (((Ido.new.set_string 1 "a").set_string 2 "b").delete_item 1).contains 1 = false ∧
      (((Ido.new.set_string 1 "a").set_string 2 "b").delete_item 1).size + 1 =
        ((Ido.new.set_string 1 "a").set_string 2 "b").size ∧
      ((Ido.new.set_string 1 "a").set_string 2 "b").delete_item 5 =
        (Ido.new.set_string 1 "a").set_string 2 "b" := by
  have hwf : WF ((Ido.new.set_string 1 "a").set_string 2 "b") :=
    WF_set_string (WF_set_string WF_new 1 "a") 2 "b"
  have h := c10_delete_item ((Ido.new.set_string 1 "a").set_string 2 "b") 1 hwf (by decide)
  have h5 := c10_delete_item ((Ido.new.set_string 1 "a").set_string 2 "b") 5 hwf (by decide)
  have hp := h.1 (.mk 0 1 "a" .STRING 0 0.0 DateTimeUtc.minUtc []) rfl
  exact ⟨hp.1, hp.2.2.1, h5.2 rfl⟩

theorem IdoItem.m_float_mk (i : Nat) (k : Int) (st : String) (t : IdoItemType)
    (n : Int) (f : Float) (d : DateTimeUtc) (a : List Ido) :
    (IdoItem.mk i k st t n f d a).m_float = f := rfl

theorem IdoItem.m_datetime_mk (i : Nat) (k : Int) (st : String) (t : IdoItemType)
    (n : Int) (f : Float) (d : DateTimeUtc) (a : List Ido) :
    (IdoItem.mk i k st t n f d a).m_datetime = d := rfl

theorem contains_false_iff {s : Ido} {k : Int} :
    s.contains k = false ↔ alGet s.m_items k = none := by
  rw [Ido.contains]
  cases alGet s.m_items k <;> simp

theorem append_array_of_none {s : Ido} {key : Int} (x : Ido)
    (hk : alGet s.m_items key = none) :
    s.append_array key x =
      .mk
        (alInsert
          (alInsert s.m_items key (.mk s.m_idx key "" .ARRAY 0 0.0 DateTimeUtc.minUtc []))
          key (.mk s.m_idx key "" .ARRAY 0 0.0 DateTimeUtc.minUtc [x]))
        (s.m_idx + 1) (alInsert s.m_ordered s.m_idx key) := by
  simp only [Ido.append_array, hk, Ido.empty_array, Ido.set_item_def,
    IdoItem.m_index_mk, IdoItem.m_key_mk, IdoItem.m_string_mk, IdoItem.m_type_mk,
    IdoItem.m_integer_mk, IdoItem.m_float_mk, IdoItem.m_datetime_mk,
    IdoItem.m_array_mk, Ido.m_items_mk, Ido.m_idx_mk, Ido.m_ordered_mk,
    alGet_alInsert_self, List.nil_append]

theorem append_array_of_array {s : Ido} {key : Int} {it : IdoItem} (x : Ido)
    (hk : alGet s.m_items key = some it) (hty : it.m_type = .ARRAY) :
    s.append_array key x =
      .mk
        (alInsert s.m_items key
          (.mk it.m_index it.m_key it.m_string .ARRAY it.m_integer it.m_float
            it.m_datetime (it.m_array ++ [x])))
        s.m_idx s.m_ordered := by
  simp only [Ido.append_array, hk, hty]
  split <;> simp_all

theorem append_array_of_nonarray {s : Ido} {key : Int} {it : IdoItem} (x : Ido)
    (hk : alGet s.m_items key = some it) (hty : it.m_type ≠ .ARRAY) :
    s.append_array key x =
      .mk
        (alInsert
          (alInsert s.m_items key (.mk s.m_idx key "" .ARRAY 0 0.0 DateTimeUtc.minUtc []))
          key (.mk s.m_idx key "" .ARRAY 0 0.0 DateTimeUtc.minUtc [x]))
        (s.m_idx + 1)
        (alInsert (alErase s.m_ordered it.m_index) s.m_idx key) := by
  simp only [Ido.append_array, hk, if_pos hty, Ido.empty_array, Ido.set_item_def,
    IdoItem.m_index_mk, IdoItem.m_key_mk, IdoItem.m_string_mk, IdoItem.m_type_mk,
    IdoItem.m_integer_mk, IdoItem.m_float_mk, IdoItem.m_datetime_mk,
    IdoItem.m_array_mk, Ido.m_items_mk, Ido.m_idx_mk, Ido.m_ordered_mk,
    alGet_alInsert_self, List.nil_append]

/-- C7: `append_array` on an absent or non-Array key first installs a
fresh empty Array entry through the generic set (consuming exactly one
new order position, like an overwrite), then pushes the given container
in place; on a key already holding an Array it only pushes, leaving the
order index and counter untouched — so two appends on a fresh key yield
an Array payload [c1, c2] while consuming one position in total. -/
theorem c7_append_array (s : Ido) (key : Int) (d c1 c2 : Ido) :
    (s.contains key = false →
        (s.append_array key d).m_idx = s.m_idx + 1 ∧
        alGet (s.append_array key d).m_ordered s.m_idx = some key ∧
        (∃ it, (s.append_array key d).get_item key = some it ∧
          it.m_type = .ARRAY ∧ it.m_array = [d] ∧ it.m_index = s.m_idx)) ∧
      (∀ it, alGet s.m_items key = some it → it.m_type = .ARRAY →
        (s.append_array key d).m_idx = s.m_idx ∧
        (s.append_array key d).m_ordered = s.m_ordered ∧
        (∃ it', (s.append_array key d).get_item key = some it' ∧
          it'.m_type = .ARRAY ∧ it'.m_array = it.m_array ++ [d] ∧
          it'.m_index = it.m_index)) ∧
      (∀ it, alGet s.m_items key = some it → it.m_type ≠ .ARRAY →
        (s.append_array key d).m_idx = s.m_idx + 1 ∧
        alGet (s.append_array key d).m_ordered s.m_idx = some key ∧
        (∃ it', (s.append_array key d).get_item key = some it' ∧
          it'.m_type = .ARRAY ∧ it'.m_array = [d] ∧ it'.m_index = s.m_idx)) ∧
      (s.contains key = false →
        ((s.append_array key c1).append_array key c2).m_idx = s.m_idx + 1 ∧
        (∃ it, ((s.append_array key c1).append_array key c2).get_item key = some it ∧
          it.m_type = .ARRAY ∧ it.m_array = [c1, c2] ∧ it.m_index = s.m_idx)) := by
  refine ⟨?_, ?_, ?_, ?_⟩
  · intro hc
    have hk := contains_false_iff.mp hc
    rw [append_array_of_none d hk]
    refine ⟨rfl, ?_, ?_⟩
    · rw [Ido.m_ordered_mk]
      exact alGet_alInsert_self _ _ _
    · exact ⟨.mk s.m_idx key "" .ARRAY 0 0.0 DateTimeUtc.minUtc [d],
        alGet_alInsert_self _ _ _, rfl, rfl, rfl⟩
  · intro it hit hty
    rw [append_array_of_array d hit hty]
    exact ⟨rfl, rfl,
      .mk it.m_index it.m_key it.m_string .ARRAY it.m_integer it.m_float
        it.m_datetime (it.m_array ++ [d]),
      alGet_alInsert_self _ _ _, rfl, rfl, rfl⟩
  · intro it hit hty
    rw [append_array_of_nonarray d hit hty]
    refine ⟨rfl, ?_, ?_⟩
    · rw [Ido.m_ordered_mk]
      exact alGet_alInsert_self _ _ _
    · exact ⟨.mk s.m_idx key "" .ARRAY 0 0.0 DateTimeUtc.minUtc [d],
        alGet_alInsert_self _ _ _, rfl, rfl, rfl⟩
  · intro hc
    have hk := contains_false_iff.mp hc
    have h1 := append_array_of_none c1 hk
    have hmem1 : alGet (s.append_array key c1).m_items key =
        some (.mk s.m_idx key "" .ARRAY 0 0.0 DateTimeUtc.minUtc [c1]) := by
      rw [h1, Ido.m_items_mk]
      exact alGet_alInsert_self _ _ _
    have h2 := append_array_of_array c2 hmem1 rfl
    rw [h2]
    refine ⟨?_, ?_⟩
    · rw [Ido.m_idx_mk, h1, Ido.m_idx_mk]
    · refine ⟨.mk s.m_idx key "" .ARRAY 0 0.0 DateTimeUtc.minUtc [c1, c2], ?_, rfl, rfl, rfl⟩
      rw [Ido.get_item, Ido.m_items_mk]
      exact alGet_alInsert_self _ _ _

/-- Witness for C7: two `append_array` calls on fresh key 5 of an empty
container give an Array payload of length 2 in push order, consuming one
order position. -/
theorem c7_append_array_witness :
    Ido.new.contains 5 = false ∧
      exArrayTwo.m_idx = Ido.new.m_idx + 1 ∧
      (∃ it, exArrayTwo.get_item 5 = some it ∧
        it.m_type = .ARRAY ∧ it.m_array = [Ido.new, Ido.new] ∧
        it.m_index = Ido.new.m_idx) := by
  have h := (c7_append_array Ido.new 5 Ido.new Ido.new Ido.new).2.2.2 (by decide)
  exact ⟨by decide, h.1, h.2⟩

/-- C4: `update(other)` copies every (key, value) pair of `other` into the
receiver's value map while leaving the order index and order counter
unchanged; a key absent from the receiver before the update stays absent
from the order index and is yielded neither by the ordered walk nor by
the iterator's yield sequence. -/
theorem c4_update_frame (s other : Ido) (k : Int)
    (hnd : (other.m_items.map Prod.fst).Nodup) :
    (s.update other).m_ordered = s.m_ordered ∧
      (s.update other).m_idx = s.m_idx ∧
      (∀ k' v', alGet other.m_items k' = some v' →
        alGet (s.update other).m_items k' = some v') ∧
      (∀ k', alGet other.m_items k' = none →
        alGet (s.update other).m_items k' = alGet s.m_items k') ∧
      orderedKeys (s.update other) = orderedKeys s ∧
      (s.contains k = false → WF s →
        (∀ p, alGet (s.update other).m_ordered p ≠ some k) ∧
        (∀ pk ∈ orderedKeys (s.update other), pk.2 ≠ k) ∧
        (∀ pr ∈ ordSeq (s.update other), pr.1 ≠ k)) := by
  have hord : (s.update other).m_ordered = s.m_ordered := rfl
  have hidx : (s.update other).m_idx = s.m_idx := rfl
  have hkeys : orderedKeys (s.update other) = orderedKeys s := by
    rw [orderedKeys, orderedKeys, hord]
  refine ⟨hord, hidx, ?_, ?_, hkeys, ?_⟩
  · intro k' v' h
    exact alGet_foldl_alInsert_of_some s.m_items hnd h
  · intro k' h
    exact alGet_foldl_alInsert_of_none s.m_items h
  · intro hc hwf
    have hnone := contains_false_iff.mp hc
    have habs : ∀ p, alGet (s.update other).m_ordered p ≠ some k := by
      intro p hp
      rw [hord] at hp
      obtain ⟨it, hit, _⟩ := hwf.1 p k hp
      rw [hnone] at hit
      exact Option.noConfusion hit
    refine ⟨habs, ?_, ?_⟩
    · intro pk hpk hk2
      have := mem_key_of_walkPositions _ _ pk hpk
      exact habs pk.1 (by rw [hord] at this ⊢; rw [← hk2]; exact this)
    · intro pr hpr hk1
      obtain ⟨p, hp⟩ := mem_key_of_iterTraceFuel _ _ pr hpr
      exact habs p (by rw [← hk1]; exact hp)

/-- Witness for C4: updating {1 ↦ "a"} with {2 ↦ "b"} copies key 2 into
the value map but leaves the order index and counter unchanged, so key 2
is absent from the order index and from the ordered walk. -/
theorem c4_update_frame_witness :
    (((Ido.new.set_string 2 "b").m_items.map Prod.fst).Nodup) ∧
      ((Ido.new.set_string 1 "a").update (Ido.new.set_string 2 "b")).m_ordered =
        (Ido.new.set_string 1 "a").m_ordered ∧
      ((Ido.new.set_string 1 "a").update (Ido.new.set_string 2 "b")).m_idx =
        (Ido.new.set_string 1 "a").m_idx ∧
      (∀ p, alGet ((Ido.new.set_string 1 "a").update
        (Ido.new.set_string 2 "b")).m_ordered p ≠ some 2) ∧
      (∀ pk ∈ orderedKeys ((Ido.new.set_string 1 "a").update
        (Ido.new.set_string 2 "b")), pk.2 ≠ 2) := by
  have h := c4_update_frame (Ido.new.set_string 1 "a") (Ido.new.set_string 2 "b") 2
    (by decide)
  have hq := h.2.2.2.2.2 (by decide) (WF_set_string WF_new 1 "a")
  exact ⟨by decide, h.1, h.2.1, hq.1, hq.2.1⟩

/-! ### Serialization claims -/

theorem arraySegs_of_mapM {ts : Ido → Option String} {key : Int} :
    ∀ {es : List Ido} {strs : List String}, es.mapM ts = some strs →
      arraySegs ts key es =
        some ((strs.map fun str => toString key ++ "=[" ++ str ++ "]").foldr
          (fun a b => a ++ b) "") := by
  intro es
  induction es with
  | nil =>
    intro strs h
    rw [List.mapM_nil] at h
    obtain rfl : [] = strs := by simpa using h
    rfl
  | cons e t ih =>
    intro strs h
    rw [List.mapM_cons] at h
    cases hte : ts e with
    | none => rw [hte] at h; simp at h
    | some b =>
      rw [hte] at h
      cases htm : t.mapM ts with
      | none => rw [htm] at h; simp at h
      | some bs =>
        rw [htm] at h
        obtain rfl : b :: bs = strs := by simpa using h
        rw [arraySegs, hte, ih htm]
        rfl

/-- C1 (counterexample): on the fresh-container sequence
`set(1,"A"); set(2,"B"); set(1,"C")`, `to_string()` does not return
"2=B,1=C" — the overwrite of key 1 leaves order position 0 as a gap, so
the ordered iteration stops at once and `to_string()` returns "". -/
theorem c1_overwrite_counterexample :
    exOverwrite.to_string = some "" ∧
      exOverwrite.to_string ≠ some "2=B,1=C" := by
  exact ⟨by decide, by decide⟩

/-- C1 (amended): after `set(1,"A"); set(2,"B"); set(1,"C")` the overwrite
leaves `size()` unchanged at 2 and `get_item(1)` holds the new string
value "C", but the overwrite leaves a gap at order position 0 (keys 2 and
1 sit at positions 1 and 2), so ordered iteration yields nothing and
`to_string()` returns the empty string rather than "2=B,1=C". -/
theorem c1_overwrite_amended :
    exOverwrite.size = 2 ∧
      (exOverwrite.get_item 1).map IdoItem.m_string = some "C" ∧
      exOverwrite.is_type 1 .STRING = true ∧
      exOverwrite.get_string 2 = some "B" ∧
      alGet exOverwrite.m_ordered 0 = none ∧
      alGet exOverwrite.m_ordered 1 = some 2 ∧
      alGet exOverwrite.m_ordered 2 = some 1 ∧
      ordSeq exOverwrite = [] ∧
      exOverwrite.to_string = some "" := by
  refine ⟨by decide, by decide, by decide, by decide, by decide, by decide,
    by decide, rfl, by decide⟩

/-- C3 (counterexample): a container whose sole entry at key 5 is an
Array of the two (empty) nested containers serializes to "5=[]5=[]" —
the two `5=[…]` segments of one array entry are concatenated with no
separator, not comma-separated as the claim states. -/
theorem c3_array_counterexample :
    exArrayTwo.to_string = some "5=[]5=[]" ∧
      exArrayTwo.to_string ≠ some "5=[],5=[]" := by
  exact ⟨by decide, by decide⟩

/-- C3 (amended): an entry holding an Array of N nested containers is
rendered as N segments `key=[<nested to_string>]`, one per element under
the same key, concatenated directly with no separator between them (the
comma only separates distinct ordered-iteration entries); for a container
whose sole entry at key k is such an Array the output is exactly that
concatenation, and the concrete nested example of §8 serializes to
"1=Blah,2=More Blah,3=[100=nested,101=nested_two],4=32". -/
theorem c3_array_serialization :
    (∀ (k : Int) (it : IdoItem) (idx : Nat) (strs : List String),
        it.m_type = .ARRAY →
        it.m_array.mapM Ido.to_string = some strs →
        Ido.to_string (.mk [(k, it)] idx [(0, k)]) =
          some ((strs.map fun str => toString k ++ "=[" ++ str ++ "]").foldr
            (fun a b => a ++ b) "")) ∧
      exNested.to_string =
        some "1=Blah,2=More Blah,3=[100=nested,101=nested_two],4=32" := by
  constructor
  · intro k it idx strs hty hmap
    have hfuel : Ido.to_string (Ido.mk [(k, it)] idx [(0, k)]) =
        toStringFuel (itemSize it + 1 + 1) (Ido.mk [(k, it)] idx [(0, k)]) := by
      rw [Ido.to_string]
      congr 1
      simp [idoSize, itemsSize]
      omega
    have hok : orderedKeys (Ido.mk [(k, it)] idx [(0, k)]) = [(0, k)] := by
      rw [orderedKeys]
      simp [Ido.m_ordered_mk, maxPos, walkPositions, alGet]
    have hitem : (Ido.mk [(k, it)] idx [(0, k)]).get_item k = some it := by
      rw [Ido.get_item, Ido.m_items_mk, alGet_cons, if_pos rfl]
    have hstr : it.as_string =
        some ("<array of " ++ toString it.m_array.length ++ ">") := by
      rw [IdoItem.as_string, hty]
    have hgt : it.get_type = IdoItemType.ARRAY := hty
    have hstable : ∀ e ∈ it.m_array,
        toStringFuel (itemSize it + 1) e = Ido.to_string e := by
      intro e he
      apply toStringFuel_stable
      have h1 := idoSize_lt_of_mem he
      have h2 := arrSize_lt_itemSize it
      omega
    rw [hfuel, toStringFuel, hok, toStringGo, hitem]
    simp only [hstr, hgt, if_pos rfl, arraySegs_congr hstable,
      arraySegs_of_mapM hmap]
    rw [toStringGo]
    simp
  · decide

/-- Witness for the amended C3 at a concrete two-element array entry:
the two `7=[…]` segments are concatenated with no separator. -/
theorem c3_array_serialization_witness :
    (IdoItem.mk 0 0 "" .ARRAY 0 0.0 DateTimeUtc.minUtc
        [Ido.new, Ido.new]).m_type = .ARRAY ∧
      (IdoItem.mk 0 0 "" .ARRAY 0 0.0 DateTimeUtc.minUtc
        [Ido.new, Ido.new]).m_array.mapM Ido.to_string = some ["", ""] ∧
      Ido.to_string
          (.mk [(7, .mk 0 0 "" .ARRAY 0 0.0 DateTimeUtc.minUtc
            [Ido.new, Ido.new])] 0 [(0, 7)]) =
        some "7=[]7=[]" := by
  have h := c3_array_serialization.1 7
    (.mk 0 0 "" .ARRAY 0 0.0 DateTimeUtc.minUtc [Ido.new, Ido.new]) 0 ["", ""]
    rfl (by decide)
  exact ⟨rfl, by decide, h.trans (by decide)⟩
